import Mathlib

/-
  Verification of the ESP32 "Bad Apple" serial frame receiver/renderer
  (ESP_screen_receiver.ino), shallowly embedded in Lean 4.

  The firmware repeatedly: flushes the serial input buffer, reads exactly
  BYTES_PER_FRAME bytes into a global frame buffer, and if the read was
  complete it renders the frame (1 bit per pixel, row-major, MSB first,
  expanded to 16-bit colors one scanline at a time and pushed as whole
  rows) and writes a single 0xAA acknowledgement byte.

  Machine integers are modelled as Nat; byte values carry the invariant
  that they are below 256 where it matters.  Array accesses are modelled
  through Option-returning indexing, so an out-of-bounds access in the C
  code shows up as `none` here.
-/

namespace BadApple

/-- Frame width in pixels: `const int FRAME_W = 128;`. -/
def FRAME_W : Nat := 128

/-- Frame height in pixels: `const int FRAME_H = 96;`. -/
def FRAME_H : Nat := 96

/-- Bytes per packed frame: `const int BYTES_PER_FRAME = (FRAME_W * FRAME_H) / 8;`. -/
def BYTES_PER_FRAME : Nat := FRAME_W * FRAME_H / 8

/-- The TFT_eSPI white color constant (RGB565 all ones). -/
def TFT_WHITE : Nat := 0xFFFF

/-- The TFT_eSPI black color constant (RGB565 all zeros). -/
def TFT_BLACK : Nat := 0x0000

/-- The acknowledgement byte written after a successful render: `Serial.write(0xAA);`. -/
def ACK : Nat := 0xAA

/-- Bytes per packed row, `int bytesPerRow = FRAME_W / 8;` in drawFrameFast. -/
def bytesPerRow : Nat := FRAME_W / 8

/-- One `tft.pushImage(x, y, w, h, line)` call: a batched transfer of a block
of color values to the display at position (x, y). -/
structure PushOp where
  x : Nat
  y : Nat
  w : Nat
  h : Nat
  line : List Nat
deriving DecidableEq, Repr

/-- One iteration of the inner loop of drawFrameFast: reads
`rowData[x >> 3]` where `rowData = data + y * bytesPerRow`, i.e. byte
`y * bytesPerRow + (x >>> 3)` of the frame, masks it with `0x80 >> (x & 7)`
and converts the bit to a color (`pixel ? TFT_WHITE : TFT_BLACK`).
Returns `none` when the byte access is out of bounds. -/
def decodePixel (data : List Nat) (y x : Nat) : Option Nat :=
  match data[y * bytesPerRow + (x >>> 3)]? with
  | some byte => some (if byte &&& (0x80 >>> (x &&& 7)) ≠ 0 then TFT_WHITE else TFT_BLACK)
  | none => none

/-- The inner loop of drawFrameFast over the listed x values: successively
overwrites `lineBuf[x]` with the decoded color of pixel (x, y).  The
scanline buffer is `static`, so it is threaded through explicitly. -/
def fillLine (data : List Nat) (y : Nat) : List Nat → List Nat → Option (List Nat)
  | [], lineBuf => some lineBuf
  | x :: xs, lineBuf =>
    match decodePixel data y x with
    | some c => fillLine data y xs (lineBuf.set x c)
    | none => none

/-- The outer loop of drawFrameFast over the listed y values: for each row,
fill the scanline buffer and push it with `tft.pushImage(0, y, FRAME_W, 1,
lineBuf)`.  Returns the emitted display operations and the final contents
of the static scanline buffer. -/
def drawRows (data : List Nat) : List Nat → List Nat → Option (List PushOp × List Nat)
  | [], lineBuf => some ([], lineBuf)
  | y :: ys, lineBuf =>
    match fillLine data y (List.range FRAME_W) lineBuf with
    | none => none
    | some lb =>
      match drawRows data ys lb with
      | none => none
      | some (ops, lbEnd) => some (⟨0, y, FRAME_W, 1, lb⟩ :: ops, lbEnd)

/-- The renderer `drawFrameFast(const uint8_t *data)`: decodes the packed
1-bit frame row by row into the static scanline buffer and pushes each row
to the display in one operation. -/
def drawFrameFast (data lineBuf : List Nat) : Option (List PushOp × List Nat) :=
  drawRows data (List.range FRAME_H) lineBuf

/-- The receiver state: the global `frameBuf`, the static `lineBuf` of
drawFrameFast, and the bytes currently buffered in the serial input. -/
structure RxSt where
  frameBuf : List Nat
  lineBuf : List Nat
  rx : List Nat
deriving DecidableEq, Repr

/-- The flush loop `while (Serial.available()) Serial.read();` discards
every byte buffered in the serial input. -/
def serialFlush (rx : List Nat) : List Nat :=
  match rx with
  | _ => []

/-- The call `Serial.readBytes(buf, n)` returns the first `n` available
bytes, or fewer when the stream stalls before `n` bytes arrive. -/
def readBytes (avail : List Nat) (n : Nat) : List Nat :=
  avail.take n

/-- The observable outcome of one iteration of `loop()`: the successor
state, the frame buffers handed to drawFrameFast, the display operations
performed, and the bytes written outbound. -/
structure CycleOut where
  st : RxSt
  renders : List (List Nat)
  ops : List PushOp
  tx : List Nat
deriving DecidableEq, Repr

/-- One iteration of `loop()`: flush the serial input, read up to
BYTES_PER_FRAME bytes into `frameBuf` (a short read leaves the tail of the
old buffer in place), and if exactly BYTES_PER_FRAME bytes were read,
render the buffer and write the 0xAA acknowledgement.  `arriving` is the
byte sequence the serial link delivers during this iteration, after the
flush has run. -/
def cycle (st : RxSt) (arriving : List Nat) : Option CycleOut :=
  let avail := serialFlush st.rx ++ arriving
  let chunk := readBytes avail BYTES_PER_FRAME
  let fb := chunk ++ st.frameBuf.drop chunk.length
  if chunk.length = BYTES_PER_FRAME then
    match drawFrameFast fb st.lineBuf with
    | some (ops, lb) =>
      some ⟨⟨fb, lb, avail.drop chunk.length⟩, [fb], ops, [ACK]⟩
    | none => none
  else
    some ⟨⟨fb, st.lineBuf, avail.drop chunk.length⟩, [], [], []⟩

/-! ### Specification-side (mathematical) description of the renderer -/

/-- The color the specification assigns to pixel (x, y): white exactly when
bit `7 - x % 8` of byte `x / 8` of the row starting at byte
`y * (FRAME_W / 8)` is set, black otherwise. -/
def specColor (F : List Nat) (y x : Nat) : Nat :=
  if (F.getD (y * (FRAME_W / 8) + x / 8) 0).testBit (7 - x % 8) then TFT_WHITE else TFT_BLACK

/-- The decoded scanline of row y according to the specification. -/
def specRow (F : List Nat) (y : Nat) : List Nat :=
  (List.range FRAME_W).map (specColor F y)

/-- The full sequence of display operations the specification predicts:
one whole-row push at (0, y) for every row y. -/
def specOps (F : List Nat) : List PushOp :=
  (List.range FRAME_H).map (fun y => ⟨0, y, FRAME_W, 1, specRow F y⟩)

/-- Read back one byte from a decoded scanline: repack 8 consecutive
colors, MSB first, taking a white pixel as a set bit. -/
def encodeByte (row : List Nat) (i : Nat) : Nat :=
  (List.range 8).foldl (fun acc j => 2 * acc + (if row.getD (8 * i + j) 0 = TFT_WHITE then 1 else 0)) 0

/-- Read back one whole scanline as `bytesPerRow` packed bytes. -/
def encodeRow (row : List Nat) : List Nat :=
  (List.range bytesPerRow).map (encodeByte row)

/-- Read the displayed surface back into a packed frame: repack each pushed
row and concatenate, row-major. -/
def decodeSurface (ops : List PushOp) : List Nat :=
  (ops.map (fun op => encodeRow op.line)).flatten

/-! ### Basic facts about the constants -/

theorem FRAME_W_eq : FRAME_W = 128 := rfl

theorem FRAME_H_eq : FRAME_H = 96 := rfl

theorem BYTES_PER_FRAME_eq : BYTES_PER_FRAME = 1536 := rfl

theorem bytesPerRow_eq : bytesPerRow = 16 := rfl

/-! ### The bit extraction of the inner loop -/

/-- The mask `0x80 >> (x & 7)` is the power of two selecting bit `7 - x % 8`. -/
theorem mask_eq_two_pow (x : Nat) : (0x80 >>> (x &&& 7)) = 2 ^ (7 - x % 8) := by
  have h7 : x &&& 7 = x % 8 := by simpa using Nat.and_pow_two_sub_one_eq_mod x 3
  rw [h7, Nat.shiftRight_eq_div_pow]
  have h8 : (0x80 : Nat) = 2 ^ 7 := by norm_num
  rw [h8, Nat.pow_div (by omega) (by norm_num)]

/-- The C test `byte & (0x80 >> (x & 7))` is nonzero exactly when bit
`7 - x % 8` of the byte is set. -/
theorem and_mask_testBit (b x : Nat) :
    (b &&& (0x80 >>> (x &&& 7)) ≠ 0) ↔ Nat.testBit b (7 - x % 8) := by
  rw [mask_eq_two_pow, Nat.and_two_pow]
  rcases hb : Nat.testBit b (7 - x % 8) <;> simp [hb]

/-- In range, the pixel decode of the code agrees with the specification
color and in particular does not fault. -/
theorem decodePixel_eq (F : List Nat) (y x : Nat) (hF : F.length = BYTES_PER_FRAME)
    (hy : y < FRAME_H) (hx : x < FRAME_W) :
    decodePixel F y x = some (specColor F y x) := by
  have hx8 : x >>> 3 = x / 8 := by
    rw [Nat.shiftRight_eq_div_pow]
  have hyW : y < 96 := hy
  have hxW : x < 128 := hx
  have hidx : y * bytesPerRow + (x >>> 3) < F.length := by
    rw [hF, BYTES_PER_FRAME_eq, bytesPerRow_eq, hx8]
    omega
  have hgetD : F.getD (y * (FRAME_W / 8) + x / 8) 0 = F[y * bytesPerRow + (x >>> 3)] := by
    have : y * (FRAME_W / 8) + x / 8 = y * bytesPerRow + (x >>> 3) := by
      rw [hx8]; rfl
    rw [this, List.getD_eq_getElem F 0 hidx]
  simp only [decodePixel, List.getElem?_eq_getElem hidx, specColor, hgetD]
  congr 1
  exact if_congr (and_mask_testBit _ x) rfl rfl

/-! ### The scanline fill loop -/

/-- When every pixel decode succeeds, the fill loop is the fold of
successive scanline-buffer writes. -/
theorem fillLine_eq_foldl (F : List Nat) (y : Nat) (xs : List Nat) (lb : List Nat)
    (h : ∀ x ∈ xs, decodePixel F y x = some (specColor F y x)) :
    fillLine F y xs lb = some (xs.foldl (fun b x => b.set x (specColor F y x)) lb) := by
  induction xs generalizing lb with
  | nil => rfl
  | cons x xs ih =>
    have hx := h x (List.mem_cons_self x xs)
    simp only [fillLine, hx, List.foldl_cons]
    exact ih _ (fun z hz => h z (List.mem_cons_of_mem x hz))

/-- Setting just past a length-k list hits the head of the second part. -/
theorem set_append_of_length_eq {u w : List Nat} {k : Nat} (hk : u.length = k) (v : Nat) :
    (u ++ w).set k v = u ++ w.set 0 v := by
  rw [List.set_append, hk]
  simp

/-- Writing g 0, ..., g (k-1) into successive cells of a buffer replaces
its first k cells. -/
theorem foldl_set_range (g : Nat → Nat) (lb : List Nat) (n : Nat) (hlb : lb.length = n) :
    ∀ k, k ≤ n →
      (List.range k).foldl (fun b x => b.set x (g x)) lb = (List.range k).map g ++ lb.drop k := by
  intro k
  induction k with
  | zero => simp
  | succ k ih =>
    intro hk
    rw [List.range_succ, List.foldl_append, List.map_append, ih (by omega)]
    simp only [List.foldl_cons, List.foldl_nil, List.map_cons, List.map_nil]
    rw [set_append_of_length_eq (by simp) (g k),
      List.drop_eq_getElem_cons (by omega : k < lb.length), List.set_cons_zero,
      List.append_assoc]
    rfl

/-- For an in-range row of a full frame, the fill loop over all columns
succeeds and leaves exactly the specification scanline in the buffer,
regardless of the buffer's previous contents. -/
theorem fillLine_range (F : List Nat) (y : Nat) (lb : List Nat)
    (hF : F.length = BYTES_PER_FRAME) (hy : y < FRAME_H) (hlb : lb.length = FRAME_W) :
    fillLine F y (List.range FRAME_W) lb = some (specRow F y) := by
  rw [fillLine_eq_foldl F y _ lb
    (fun x hx => decodePixel_eq F y x hF hy (List.mem_range.mp hx))]
  rw [foldl_set_range (specColor F y) lb FRAME_W hlb FRAME_W le_rfl]
  have hdrop : lb.drop FRAME_W = [] := by
    rw [← hlb]; exact List.drop_length lb
  rw [hdrop, List.append_nil]
  rfl

theorem specRow_length (F : List Nat) (y : Nat) : (specRow F y).length = FRAME_W := by
  simp [specRow]

/-- The row loop over any list of in-range rows emits exactly one
specification push per row and ends with a full-width scanline buffer. -/
theorem drawRows_eq (F : List Nat) (hF : F.length = BYTES_PER_FRAME) :
    ∀ ys : List Nat, ∀ lb : List Nat, (∀ y ∈ ys, y < FRAME_H) → lb.length = FRAME_W →
      ∃ lbEnd, drawRows F ys lb
          = some (ys.map (fun y => ⟨0, y, FRAME_W, 1, specRow F y⟩), lbEnd)
        ∧ lbEnd.length = FRAME_W := by
  intro ys
  induction ys with
  | nil => exact fun lb _ hlb => ⟨lb, rfl, hlb⟩
  | cons y ys ih =>
    intro lb hys hlb
    have h1 := fillLine_range F y lb hF (hys y (List.mem_cons_self y ys)) hlb
    obtain ⟨lbEnd, h2, h3⟩ :=
      ih (specRow F y) (fun z hz => hys z (List.mem_cons_of_mem y hz)) (specRow_length F y)
    simp only [drawRows, h1, h2, List.map_cons]
    exact ⟨lbEnd, rfl, h3⟩

/-- drawFrameFast on a full frame and full-width scanline buffer succeeds
and emits exactly the specification operations. -/
theorem drawFrameFast_eq (F lb : List Nat) (hF : F.length = BYTES_PER_FRAME)
    (hlb : lb.length = FRAME_W) :
    ∃ lbEnd, drawFrameFast F lb = some (specOps F, lbEnd) ∧ lbEnd.length = FRAME_W :=
  drawRows_eq F hF (List.range FRAME_H) lb (fun _ hy => List.mem_range.mp hy) hlb

/-! ### Behaviour of one loop iteration -/

/-- A cycle in which at least BYTES_PER_FRAME bytes arrive reads exactly
one frame, renders it, leaves the surplus buffered, and acknowledges. -/
theorem cycle_full (fb lb rx F : List Nat) (hfb : fb.length = BYTES_PER_FRAME)
    (hlb : lb.length = FRAME_W) (hF : BYTES_PER_FRAME ≤ F.length) :
    ∃ lbEnd, cycle ⟨fb, lb, rx⟩ F
        = some ⟨⟨F.take BYTES_PER_FRAME, lbEnd, F.drop BYTES_PER_FRAME⟩,
            [F.take BYTES_PER_FRAME], specOps (F.take BYTES_PER_FRAME), [ACK]⟩
      ∧ lbEnd.length = FRAME_W := by
  have hchunk : (F.take BYTES_PER_FRAME).length = BYTES_PER_FRAME := by
    rw [List.length_take]; omega
  obtain ⟨lbEnd, hdraw, hlen⟩ := drawFrameFast_eq (F.take BYTES_PER_FRAME) lb hchunk hlb
  refine ⟨lbEnd, ?_, hlen⟩
  have hfbdrop : fb.drop (F.take BYTES_PER_FRAME).length = [] := by
    rw [hchunk, ← hfb]; exact List.drop_length fb
  simp only [cycle, serialFlush, readBytes, List.nil_append]
  rw [hfbdrop, List.append_nil, hchunk, if_pos rfl, hdraw]

/-- A cycle in which fewer than BYTES_PER_FRAME bytes arrive overwrites
only a prefix of the frame buffer, renders nothing and sends nothing. -/
theorem cycle_short (fb lb rx F : List Nat) (hF : F.length < BYTES_PER_FRAME) :
    cycle ⟨fb, lb, rx⟩ F = some ⟨⟨F ++ fb.drop F.length, lb, []⟩, [], [], []⟩ := by
  have ht : F.take BYTES_PER_FRAME = F := List.take_of_length_le (by omega)
  simp only [cycle, serialFlush, readBytes, List.nil_append]
  rw [ht, if_neg (by omega), List.drop_length]

/-- A cycle either renders and sends exactly the acknowledgement, or
renders nothing, performs no display operation and sends nothing. -/
theorem cycle_cases (st : RxSt) (arr : List Nat) (o : CycleOut)
    (h : cycle st arr = some o) :
    (o.renders ≠ [] ∧ o.tx = [ACK]) ∨ (o.renders = [] ∧ o.ops = [] ∧ o.tx = []) := by
  simp only [cycle, serialFlush, readBytes, List.nil_append] at h
  split at h
  · split at h
    · injection h with h2
      subst h2
      left
      exact ⟨by simp, rfl⟩
    · exact Option.noConfusion h
  · injection h with h2
    subst h2
    right
    exact ⟨rfl, rfl, rfl⟩

/-- A complete-frame cycle starting from well-formed buffers: the exact
successor state and outputs. -/
theorem cycle_complete (fb lb rx F : List Nat) (hfb : fb.length = BYTES_PER_FRAME)
    (hlb : lb.length = FRAME_W) (hF : F.length = BYTES_PER_FRAME) :
    ∃ lbEnd, cycle ⟨fb, lb, rx⟩ F = some ⟨⟨F, lbEnd, []⟩, [F], specOps F, [ACK]⟩
      ∧ lbEnd.length = FRAME_W := by
  obtain ⟨lbEnd, hcy, hlen⟩ := cycle_full fb lb rx F hfb hlb (by omega)
  rw [List.take_of_length_le (by omega), ← hF, List.drop_length] at hcy
  exact ⟨lbEnd, hcy, hlen⟩

/-! ### The claims -/

/-- C1: for every valid frame buffer of FRAME_BYTES bytes and every row y
and column x, the rendered color at (x, y) is white exactly when bit
`7 - x % 8` of byte `x / 8` of the row starting at byte `y * (width / 8)`
of the frame is set, black otherwise, and each decoded row of width color
values is transferred as one whole-row operation at (0, y). -/
theorem C1_render_pixels (F lb : List Nat) (hF : F.length = BYTES_PER_FRAME)
    (hlb : lb.length = FRAME_W) :
    ∃ ops lbEnd, drawFrameFast F lb = some (ops, lbEnd) ∧ ops.length = FRAME_H ∧
      ∀ y, y < FRAME_H → ∃ row, ops[y]? = some ⟨0, y, FRAME_W, 1, row⟩ ∧
        row.length = FRAME_W ∧ ∀ x, x < FRAME_W →
          row[x]? = some (if (F.getD (y * (FRAME_W / 8) + x / 8) 0).testBit (7 - x % 8)
            then TFT_WHITE else TFT_BLACK) := by
  obtain ⟨lbEnd, hdraw, _⟩ := drawFrameFast_eq F lb hF hlb
  refine ⟨specOps F, lbEnd, hdraw, by simp [specOps], ?_⟩
  intro y hy
  refine ⟨specRow F y, ?_, specRow_length F y, ?_⟩
  · simp [specOps, List.getElem?_map, List.getElem?_range hy]
  · intro x hx
    simp [specRow, List.getElem?_map, List.getElem?_range hx, specColor]

/-- Witness for C1 at the all-ones frame and a zeroed scanline buffer. -/
theorem C1_render_pixels_witness :
    (List.replicate BYTES_PER_FRAME 0xFF).length = BYTES_PER_FRAME ∧
    (List.replicate FRAME_W 0).length = FRAME_W ∧
    (∃ ops lbEnd,
      drawFrameFast (List.replicate BYTES_PER_FRAME 0xFF) (List.replicate FRAME_W 0)
          = some (ops, lbEnd) ∧ ops.length = FRAME_H ∧
        ∀ y, y < FRAME_H → ∃ row, ops[y]? = some ⟨0, y, FRAME_W, 1, row⟩ ∧
          row.length = FRAME_W ∧ ∀ x, x < FRAME_W →
            row[x]? = some (if ((List.replicate BYTES_PER_FRAME 0xFF).getD
                  (y * (FRAME_W / 8) + x / 8) 0).testBit (7 - x % 8)
              then TFT_WHITE else TFT_BLACK)) :=
  ⟨by simp, by simp, C1_render_pixels _ _ (by simp) (by simp)⟩

/-- C2: the renderer is invoked and an acknowledgement emitted exactly
when the read returns FRAME_BYTES bytes; a short read restarts the cycle
with no render, no acknowledgement and no other output. -/
theorem C2_render_ack_iff_full_read (fb lb rx F : List Nat)
    (hfb : fb.length = BYTES_PER_FRAME) (hlb : lb.length = FRAME_W) :
    ∃ o, cycle ⟨fb, lb, rx⟩ F = some o ∧
      (BYTES_PER_FRAME ≤ F.length → o.renders = [F.take BYTES_PER_FRAME] ∧ o.tx = [ACK]) ∧
      (F.length < BYTES_PER_FRAME → o.renders = [] ∧ o.ops = [] ∧ o.tx = []) := by
  by_cases hc : BYTES_PER_FRAME ≤ F.length
  · obtain ⟨lbEnd, hcy, _⟩ := cycle_full fb lb rx F hfb hlb hc
    exact ⟨_, hcy, fun _ => ⟨rfl, rfl⟩, fun h2 => absurd hc (by omega)⟩
  · push_neg at hc
    exact ⟨_, cycle_short fb lb rx F hc, fun h2 => absurd h2 (by omega),
      fun _ => ⟨rfl, rfl, rfl⟩⟩

/-- Witness for C2 at a short (empty) delivery into zeroed buffers. -/
theorem C2_render_ack_iff_full_read_witness :
    (List.replicate BYTES_PER_FRAME 0).length = BYTES_PER_FRAME ∧
    (List.replicate FRAME_W 0).length = FRAME_W ∧
    (∃ o, cycle ⟨List.replicate BYTES_PER_FRAME 0, List.replicate FRAME_W 0, []⟩ [] = some o ∧
      (BYTES_PER_FRAME ≤ ([] : List Nat).length →
        o.renders = [([] : List Nat).take BYTES_PER_FRAME] ∧ o.tx = [ACK]) ∧
      (([] : List Nat).length < BYTES_PER_FRAME →
        o.renders = [] ∧ o.ops = [] ∧ o.tx = [])) :=
  ⟨by simp, by simp, C2_render_ack_iff_full_read _ _ _ _ (by simp) (by simp)⟩

/-- C3: after a successful render exactly one 0xAA byte goes out before
the next cycle, and the loop never sends any other outbound byte. -/
theorem C3_only_ack_emitted (st : RxSt) (arr : List Nat) (o : CycleOut)
    (h : cycle st arr = some o) :
    (o.renders ≠ [] → o.tx = [ACK]) ∧ (o.renders = [] → o.tx = []) ∧
    ∀ b ∈ o.tx, b = ACK := by
  rcases cycle_cases st arr o h with ⟨hr, htx⟩ | ⟨hr, _, htx⟩
  · exact ⟨fun _ => htx, fun h2 => absurd h2 hr, by simp [htx]⟩
  · exact ⟨fun h2 => absurd hr h2, fun _ => htx, by simp [htx]⟩

/-- Witness for C3 at an empty delivery into zeroed buffers. -/
theorem C3_only_ack_emitted_witness :
    cycle ⟨List.replicate BYTES_PER_FRAME 0, List.replicate FRAME_W 0, []⟩ []
        = some ⟨⟨List.replicate BYTES_PER_FRAME 0, List.replicate FRAME_W 0, []⟩, [], [], []⟩ ∧
    ((([] : List (List Nat)) ≠ [] → ([] : List Nat) = [ACK]) ∧
     (([] : List (List Nat)) = [] → ([] : List Nat) = []) ∧
     ∀ b ∈ ([] : List Nat), b = ACK) :=
  ⟨rfl, C3_only_ack_emitted ⟨List.replicate BYTES_PER_FRAME 0, List.replicate FRAME_W 0, []⟩ []
    ⟨⟨List.replicate BYTES_PER_FRAME 0, List.replicate FRAME_W 0, []⟩, [], [], []⟩ rfl⟩

/-- C4: on every cycle, all buffered input bytes are discarded before the
frame read is attempted: the flush empties the buffer, the read consumes
only freshly arriving bytes, and the whole cycle is independent of
whatever was buffered. -/
theorem C4_flush_before_every_read (fb lb rx rx2 arr : List Nat) :
    serialFlush rx = [] ∧
    readBytes (serialFlush rx ++ arr) BYTES_PER_FRAME = readBytes arr BYTES_PER_FRAME ∧
    cycle ⟨fb, lb, rx⟩ arr = cycle ⟨fb, lb, rx2⟩ arr :=
  ⟨rfl, rfl, rfl⟩

/-- C5: leading garbage already buffered, followed by a clean frame of
exactly BYTES_PER_FRAME bytes, is recovered in a single flush cycle: the
garbage is flushed and the clean frame is rendered and acknowledged. -/
theorem C5_resync_after_garbage (garbage F fb lb : List Nat)
    (hF : F.length = BYTES_PER_FRAME) (hfb : fb.length = BYTES_PER_FRAME)
    (hlb : lb.length = FRAME_W) :
    ∃ lbEnd, cycle ⟨fb, lb, garbage⟩ F = some ⟨⟨F, lbEnd, []⟩, [F], specOps F, [ACK]⟩ := by
  obtain ⟨lbEnd, hcy, _⟩ := cycle_complete fb lb garbage F hfb hlb hF
  exact ⟨lbEnd, hcy⟩

/-- Witness for C5 with three garbage bytes buffered ahead of an all-ones
frame. -/
theorem C5_resync_after_garbage_witness :
    (List.replicate BYTES_PER_FRAME 0xFF).length = BYTES_PER_FRAME ∧
    (List.replicate BYTES_PER_FRAME 0).length = BYTES_PER_FRAME ∧
    (List.replicate FRAME_W 0).length = FRAME_W ∧
    (∃ lbEnd, cycle ⟨List.replicate BYTES_PER_FRAME 0, List.replicate FRAME_W 0, [1, 2, 3]⟩
          (List.replicate BYTES_PER_FRAME 0xFF)
        = some ⟨⟨List.replicate BYTES_PER_FRAME 0xFF, lbEnd, []⟩,
            [List.replicate BYTES_PER_FRAME 0xFF],
            specOps (List.replicate BYTES_PER_FRAME 0xFF), [ACK]⟩) :=
  ⟨by simp, by simp, by simp,
    C5_resync_after_garbage [1, 2, 3] _ _ _ (by simp) (by simp) (by simp)⟩

/-- C8: feeding the identical complete frame in two consecutive cycles
renders the identical display operations both times with exactly one
acknowledgement each, and the rendered output is the same from any other
well-formed starting state: it depends only on the frame bytes. -/
theorem C8_deterministic_rerender (fb lb rx fb2 lb2 rx2 F : List Nat)
    (hfb : fb.length = BYTES_PER_FRAME) (hlb : lb.length = FRAME_W)
    (hfb2 : fb2.length = BYTES_PER_FRAME) (hlb2 : lb2.length = FRAME_W)
    (hF : F.length = BYTES_PER_FRAME) :
    ∃ o1 o2 o3, cycle ⟨fb, lb, rx⟩ F = some o1 ∧ cycle o1.st F = some o2 ∧
      cycle ⟨fb2, lb2, rx2⟩ F = some o3 ∧
      o1.ops = o2.ops ∧ o1.tx = [ACK] ∧ o2.tx = [ACK] ∧
      o3.ops = o1.ops ∧ o3.tx = o1.tx := by
  obtain ⟨e1, h1, hl1⟩ := cycle_complete fb lb rx F hfb hlb hF
  obtain ⟨e2, h2, _⟩ := cycle_complete F e1 [] F hF hl1 hF
  obtain ⟨e3, h3, _⟩ := cycle_complete fb2 lb2 rx2 F hfb2 hlb2 hF
  exact ⟨_, _, _, h1, h2, h3, rfl, rfl, rfl, rfl, rfl⟩

/-- Witness for C8 re-sending the all-ones frame from two different
zeroed- and one-filled starting states. -/
theorem C8_deterministic_rerender_witness :
    (List.replicate BYTES_PER_FRAME 0).length = BYTES_PER_FRAME ∧
    (List.replicate BYTES_PER_FRAME 7).length = BYTES_PER_FRAME ∧
    (List.replicate BYTES_PER_FRAME 0xFF).length = BYTES_PER_FRAME ∧
    (∃ o1 o2 o3,
      cycle ⟨List.replicate BYTES_PER_FRAME 0, List.replicate FRAME_W 0, []⟩
          (List.replicate BYTES_PER_FRAME 0xFF) = some o1 ∧
      cycle o1.st (List.replicate BYTES_PER_FRAME 0xFF) = some o2 ∧
      cycle ⟨List.replicate BYTES_PER_FRAME 7, List.replicate FRAME_W 5, [9]⟩
          (List.replicate BYTES_PER_FRAME 0xFF) = some o3 ∧
      o1.ops = o2.ops ∧ o1.tx = [ACK] ∧ o2.tx = [ACK] ∧
      o3.ops = o1.ops ∧ o3.tx = o1.tx) :=
  ⟨by simp, by simp, by simp,
    C8_deterministic_rerender _ _ [] _ _ [9] _
      (by simp) (by simp) (by simp) (by simp) (by simp)⟩

/-- C9: every frame-buffer read of drawFrameFast lands at index
`y * bytesPerRow + (x >> 3)`, strictly below BYTES_PER_FRAME, every
scanline write lands at index x, strictly below FRAME_W, and the
Option-valued embedded accesses never yield none. -/
theorem C9_renderer_in_bounds (F lb : List Nat) (y x : Nat)
    (hF : F.length = BYTES_PER_FRAME) (hlb : lb.length = FRAME_W)
    (hy : y < FRAME_H) (hx : x < FRAME_W) :
    y * bytesPerRow + (x >>> 3) < BYTES_PER_FRAME ∧ x < FRAME_W ∧
    decodePixel F y x ≠ none ∧ drawFrameFast F lb ≠ none := by
  have hyW : y < 96 := hy
  have hxW : x < 128 := hx
  have hx8 : x >>> 3 = x / 8 := by rw [Nat.shiftRight_eq_div_pow]
  refine ⟨?_, hx, ?_, ?_⟩
  · rw [bytesPerRow_eq, BYTES_PER_FRAME_eq, hx8]; omega
  · rw [decodePixel_eq F y x hF hy hx]; simp
  · obtain ⟨lbEnd, hdraw, _⟩ := drawFrameFast_eq F lb hF hlb
    rw [hdraw]; simp

/-- Witness for C9 at the last pixel of the all-ones frame. -/
theorem C9_renderer_in_bounds_witness :
    (List.replicate BYTES_PER_FRAME 0xFF).length = BYTES_PER_FRAME ∧
    (List.replicate FRAME_W 0).length = FRAME_W ∧ 95 < FRAME_H ∧ 127 < FRAME_W ∧
    (95 * bytesPerRow + (127 >>> 3) < BYTES_PER_FRAME ∧ 127 < FRAME_W ∧
      decodePixel (List.replicate BYTES_PER_FRAME 0xFF) 95 127 ≠ none ∧
      drawFrameFast (List.replicate BYTES_PER_FRAME 0xFF) (List.replicate FRAME_W 0) ≠ none) :=
  ⟨by simp, by simp, by decide, by decide,
    C9_renderer_in_bounds _ _ 95 127 (by simp) (by simp) (by decide) (by decide)⟩

/-- C10: after a short read the frame buffer is a mixture of the newly
read prefix and stale bytes, but every buffer handed to the renderer is
exactly the BYTES_PER_FRAME bytes delivered by the complete read of the
same cycle. -/
theorem C10_renderer_gets_only_full_reads (fb lb rx arr : List Nat)
    (hfb : fb.length = BYTES_PER_FRAME) (hlb : lb.length = FRAME_W) :
    ∃ o, cycle ⟨fb, lb, rx⟩ arr = some o ∧
      o.st.frameBuf = arr.take BYTES_PER_FRAME ++ fb.drop (min arr.length BYTES_PER_FRAME) ∧
      ∀ b ∈ o.renders, b = arr.take BYTES_PER_FRAME ∧ b.length = BYTES_PER_FRAME := by
  by_cases hc : BYTES_PER_FRAME ≤ arr.length
  · obtain ⟨lbEnd, hcy, _⟩ := cycle_full fb lb rx arr hfb hlb hc
    refine ⟨_, hcy, ?_, ?_⟩
    · show arr.take BYTES_PER_FRAME
          = arr.take BYTES_PER_FRAME ++ fb.drop (min arr.length BYTES_PER_FRAME)
      rw [min_eq_right hc, ← hfb, List.drop_length, List.append_nil]
    · intro b hb
      have hb2 : b = arr.take BYTES_PER_FRAME := by simpa using hb
      subst hb2
      exact ⟨rfl, by rw [List.length_take]; omega⟩
  · push_neg at hc
    refine ⟨_, cycle_short fb lb rx arr hc, ?_, by simp⟩
    show arr ++ fb.drop arr.length
        = arr.take BYTES_PER_FRAME ++ fb.drop (min arr.length BYTES_PER_FRAME)
    rw [List.take_of_length_le (by omega), min_eq_left (by omega)]

/-- Witness for C10 at a 3-byte short delivery into zeroed buffers. -/
theorem C10_renderer_gets_only_full_reads_witness :
    (List.replicate BYTES_PER_FRAME 0).length = BYTES_PER_FRAME ∧
    (List.replicate FRAME_W 0).length = FRAME_W ∧
    (∃ o, cycle ⟨List.replicate BYTES_PER_FRAME 0, List.replicate FRAME_W 0, []⟩ [4, 5, 6]
          = some o ∧
      o.st.frameBuf = [4, 5, 6].take BYTES_PER_FRAME
          ++ (List.replicate BYTES_PER_FRAME 0).drop (min [4, 5, 6].length BYTES_PER_FRAME) ∧
      ∀ b ∈ o.renders, b = [4, 5, 6].take BYTES_PER_FRAME ∧ b.length = BYTES_PER_FRAME) :=
  ⟨by simp, by simp,
    C10_renderer_gets_only_full_reads _ _ [] [4, 5, 6] (by simp) (by simp)⟩

/-! ### Round-trip machinery for reading the surface back -/

set_option maxRecDepth 8192 in
/-- Rebuilding a byte MSB-first from its eight bits is the identity on
bytes. -/
theorem byte_rebuild : ∀ b < 256,
    (List.range 8).foldl (fun acc j => 2 * acc + (if Nat.testBit b (7 - j) then 1 else 0)) 0
      = b := by decide

theorem specRow_getD (F : List Nat) (y k : Nat) (hk : k < FRAME_W) :
    (specRow F y).getD k 0 = specColor F y k := by
  simp [specRow, List.getD_eq_getElem?_getD, List.getElem?_map, List.getElem?_range hk]

/-- Reading byte i back from the decoded scanline of row y recovers byte
`y * bytesPerRow + i` of the frame. -/
theorem encodeByte_spec (F : List Nat) (y i : Nat) (_hy : y < FRAME_H) (hi : i < bytesPerRow)
    (hb : F.getD (y * bytesPerRow + i) 0 < 256) :
    encodeByte (specRow F y) i = F.getD (y * bytesPerRow + i) 0 := by
  have hi16 : i < 16 := hi
  have hcong : ∀ acc : Nat, ∀ j ∈ List.range 8,
      2 * acc + (if (specRow F y).getD (8 * i + j) 0 = TFT_WHITE then 1 else 0)
        = 2 * acc + (if Nat.testBit (F.getD (y * bytesPerRow + i) 0) (7 - j) then 1 else 0) := by
    intro acc j hj
    have hj8 : j < 8 := List.mem_range.mp hj
    have hk : 8 * i + j < FRAME_W := by rw [FRAME_W_eq]; omega
    rw [specRow_getD F y _ hk]
    have hdiv : (8 * i + j) / 8 = i := by omega
    have hmod : (8 * i + j) % 8 = j := by omega
    unfold specColor
    rw [hdiv, hmod]
    have hBPR : y * (FRAME_W / 8) + i = y * bytesPerRow + i := rfl
    rw [hBPR]
    rcases htb : Nat.testBit (F.getD (y * bytesPerRow + i) 0) (7 - j) <;>
      simp [TFT_WHITE, TFT_BLACK]
  unfold encodeByte
  rw [List.foldl_ext _ _ 0 hcong]
  exact byte_rebuild _ hb

/-- Reading out positions base, base+1, ..., base+n-1 of a list with
default 0 recovers the corresponding slice when it is fully in range. -/
theorem map_getD_range (l : List Nat) :
    ∀ n base, base + n ≤ l.length →
      (List.range n).map (fun i => l.getD (base + i) 0) = (l.drop base).take n := by
  intro n
  induction n with
  | zero => intro base _; simp
  | succ n ih =>
    intro base h
    have hbase : base < l.length := by omega
    rw [List.range_succ_eq_map, List.map_cons, List.map_map,
      List.drop_eq_getElem_cons hbase, List.take_succ_cons]
    congr 1
    · rw [Nat.add_zero, List.getD_eq_getElem l 0 hbase]
    · have hcomp : ((fun i => l.getD (base + i) 0) ∘ Nat.succ)
          = fun i => l.getD (base + 1 + i) 0 := by
        funext i
        simp only [Function.comp]
        congr 1
        omega
      rw [hcomp, ih (base + 1) (by omega)]

/-- Concatenating the m consecutive n-byte slices of a list of length
m * n recovers the list. -/
theorem flatten_chunks (n : Nat) :
    ∀ m, ∀ l : List Nat, l.length = m * n →
      ((List.range m).map
        (fun y => (List.range n).map (fun i => l.getD (y * n + i) 0))).flatten = l := by
  intro m
  induction m with
  | zero =>
    intro l hl
    simp only [Nat.zero_mul] at hl
    rw [List.eq_nil_of_length_eq_zero hl]
    rfl
  | succ m ih =>
    intro l hl
    rw [Nat.succ_mul] at hl
    rw [List.range_succ_eq_map, List.map_cons, List.flatten_cons, List.map_map]
    have h1 : (List.range n).map (fun i => l.getD (0 * n + i) 0) = l.take n := by
      have h2 := map_getD_range l n 0 (by omega)
      simp only [Nat.zero_add] at h2
      simpa using h2
    have h2 : ((fun y => (List.range n).map fun i => l.getD (y * n + i) 0) ∘ Nat.succ)
        = fun y => (List.range n).map (fun i => (l.drop n).getD (y * n + i) 0) := by
      funext y
      simp only [Function.comp]
      apply List.map_congr_left
      intro i _
      rw [List.getD_eq_getElem?_getD, List.getD_eq_getElem?_getD, List.getElem?_drop]
      have hidx : Nat.succ y * n + i = n + (y * n + i) := by
        rw [Nat.succ_eq_add_one]; ring
      rw [hidx]
    rw [h1, h2, ih (l.drop n) (by rw [List.length_drop]; omega)]
    exact List.take_append_drop n l

/-- C6: rendering a valid frame and repacking the displayed surface back
into bits, white pixel to set bit, MSB first, row-major, reproduces the
frame exactly. -/
theorem C6_render_roundtrip (F lb : List Nat) (hF : F.length = BYTES_PER_FRAME)
    (hbytes : ∀ b ∈ F, b < 256) (hlb : lb.length = FRAME_W) :
    ∃ ops lbEnd, drawFrameFast F lb = some (ops, lbEnd) ∧ decodeSurface ops = F := by
  obtain ⟨lbEnd, hdraw, _⟩ := drawFrameFast_eq F lb hF hlb
  refine ⟨specOps F, lbEnd, hdraw, ?_⟩
  unfold decodeSurface specOps
  rw [List.map_map]
  have hcomp : ((fun op : PushOp => encodeRow op.line)
        ∘ fun y => (⟨0, y, FRAME_W, 1, specRow F y⟩ : PushOp))
      = fun y => encodeRow (specRow F y) := rfl
  rw [hcomp]
  have hrow : ∀ y ∈ List.range FRAME_H, encodeRow (specRow F y)
      = (List.range bytesPerRow).map (fun i => F.getD (y * bytesPerRow + i) 0) := by
    intro y hy
    have hy96 : y < 96 := List.mem_range.mp hy
    unfold encodeRow
    apply List.map_congr_left
    intro i hi
    have hi16 : i < 16 := List.mem_range.mp hi
    have hidx : y * bytesPerRow + i < F.length := by
      rw [hF, BYTES_PER_FRAME_eq, bytesPerRow_eq]
      omega
    refine encodeByte_spec F y i hy96 hi16 ?_
    rw [List.getD_eq_getElem F 0 hidx]
    exact hbytes _ (List.getElem_mem hidx)
  rw [List.map_congr_left hrow]
  exact flatten_chunks bytesPerRow FRAME_H F hF

/-- Witness for C6 at the all-ones frame. -/
theorem C6_render_roundtrip_witness :
    (List.replicate BYTES_PER_FRAME 0xFF).length = BYTES_PER_FRAME ∧
    (∀ b ∈ List.replicate BYTES_PER_FRAME 0xFF, b < 256) ∧
    (List.replicate FRAME_W 0).length = FRAME_W ∧
    (∃ ops lbEnd,
      drawFrameFast (List.replicate BYTES_PER_FRAME 0xFF) (List.replicate FRAME_W 0)
          = some (ops, lbEnd) ∧ decodeSurface ops = List.replicate BYTES_PER_FRAME 0xFF) :=
  ⟨by simp, fun b hb => by rw [List.eq_of_mem_replicate hb]; omega, by simp,
    C6_render_roundtrip _ _ (by simp)
      (fun b hb => by rw [List.eq_of_mem_replicate hb]; omega) (by simp)⟩

/-! ### The boundary frames -/

theorem specColor_zero_frame (y x : Nat) :
    specColor (List.replicate 1536 0x00) y x = TFT_BLACK := by
  unfold specColor
  have h0 : (List.replicate 1536 0x00).getD (y * (FRAME_W / 8) + x / 8) 0 = 0 := by
    rw [List.getD_eq_getElem?_getD, List.getElem?_replicate]
    split <;> rfl
  rw [h0, Nat.zero_testBit]
  simp

theorem specColor_ones_frame (y x : Nat) (hy : y < FRAME_H) (hx : x < FRAME_W) :
    specColor (List.replicate 1536 0xFF) y x = TFT_WHITE := by
  have hy96 : y < 96 := hy
  have hx128 : x < 128 := hx
  unfold specColor
  have hidx : y * (FRAME_W / 8) + x / 8 < 1536 := by
    rw [FRAME_W_eq]
    omega
  have h255 : (List.replicate 1536 0xFF).getD (y * (FRAME_W / 8) + x / 8) 0 = 255 := by
    rw [List.getD_eq_getElem?_getD, List.getElem?_replicate, if_pos hidx]
    rfl
  have htb : Nat.testBit 255 (7 - x % 8) = true :=
    (by decide : ∀ k < 8, Nat.testBit 255 k = true) _ (by omega)
  rw [h255, htb]
  simp

/-- C7: with width 128, height 96 and 1536 frame bytes, a complete
all-0x00 frame renders the surface entirely black with one 0xAA byte
emitted, and a complete all-0xFF frame renders it entirely white with one
0xAA byte emitted. -/
theorem C7_all_black_all_white :
    (∃ o, cycle ⟨List.replicate BYTES_PER_FRAME 0, List.replicate FRAME_W 0, []⟩
        (List.replicate 1536 0x00) = some o ∧ o.tx = [0xAA] ∧ o.ops.length = 96 ∧
      ∀ op ∈ o.ops, op.line.length = 128 ∧ ∀ c ∈ op.line, c = TFT_BLACK) ∧
    (∃ o, cycle ⟨List.replicate BYTES_PER_FRAME 0, List.replicate FRAME_W 0, []⟩
        (List.replicate 1536 0xFF) = some o ∧ o.tx = [0xAA] ∧ o.ops.length = 96 ∧
      ∀ op ∈ o.ops, op.line.length = 128 ∧ ∀ c ∈ op.line, c = TFT_WHITE) := by
  constructor
  · obtain ⟨lbEnd, hcy, _⟩ := cycle_complete (List.replicate BYTES_PER_FRAME 0)
      (List.replicate FRAME_W 0) [] (List.replicate 1536 0x00) (by simp) (by simp)
      (by simp only [List.length_replicate]; rfl)
    refine ⟨_, hcy, rfl, by simp only [specOps, List.length_map, List.length_range]; rfl, ?_⟩
    intro op hop
    simp only [specOps, List.mem_map, List.mem_range] at hop
    obtain ⟨y, hy, rfl⟩ := hop
    refine ⟨specRow_length _ _, ?_⟩
    intro c hc
    simp only [specRow, List.mem_map, List.mem_range] at hc
    obtain ⟨x, hx, rfl⟩ := hc
    exact specColor_zero_frame y x
  · obtain ⟨lbEnd, hcy, _⟩ := cycle_complete (List.replicate BYTES_PER_FRAME 0)
      (List.replicate FRAME_W 0) [] (List.replicate 1536 0xFF) (by simp) (by simp)
      (by simp only [List.length_replicate]; rfl)
    refine ⟨_, hcy, rfl, by simp only [specOps, List.length_map, List.length_range]; rfl, ?_⟩
    intro op hop
    simp only [specOps, List.mem_map, List.mem_range] at hop
    obtain ⟨y, hy, rfl⟩ := hop
    refine ⟨specRow_length _ _, ?_⟩
    intro c hc
    simp only [specRow, List.mem_map, List.mem_range] at hc
    obtain ⟨x, hx, rfl⟩ := hc
    exact specColor_ones_frame y x hy hx

end BadApple
